import Mathlib

/-!
Verification of the query-to-concept mapping core of the
`semantic-analysis-of-learner` repository
(`backend/scraper/query_concept_mapper.py`, class `QueryConceptMapper`).

Strings are modelled as `List Char`.  Python dictionaries with string keys
are modelled as association lists with overwrite-on-insert semantics
(`insertIdx`), which preserves the position of an overwritten key exactly as
a CPython `dict` does.  Python's `set` subtraction produces a list in
unspecified (hash-table) order; it is modelled by `setMinus`, which fixes a
canonical order (`dedup` order) — all properties stated about such lists are
membership properties, never order properties.
-/

namespace QCM

/-- Strings, modelled as lists of characters. -/
abbrev Str := List Char

/-- Python `str.lower` (ASCII-adequate for the curriculum data). -/
def lower (s : Str) : Str := s.map Char.toLower

/-- The characters Python's `str.split()`, `str.strip()` and the regex class
`\s` treat as whitespace (ASCII range). -/
def isPySpace (c : Char) : Bool :=
  c = ' ' || c = '\t' || c = '\n' || c = '\r' || c = '\x0b' || c = '\x0c'

/-- Python `str.strip()`: drop leading and trailing whitespace. -/
def strip (s : Str) : Str :=
  ((s.dropWhile isPySpace).reverse.dropWhile isPySpace).reverse

/-- Worker for `splitWs`; `acc` holds the current word reversed. -/
def splitWsGo : Str → Str → List Str
  | [], acc => if acc = [] then [] else [acc.reverse]
  | c :: rest, acc =>
    if isPySpace c then
      if acc = [] then splitWsGo rest [] else acc.reverse :: splitWsGo rest []
    else
      splitWsGo rest (c :: acc)

/-- Python `str.split()` with no argument: split on runs of whitespace,
discarding empty substrings. -/
def splitWs (s : Str) : List Str := splitWsGo s []

/-- Boolean prefix test on character lists. -/
def isPref : Str → Str → Bool
  | [], _ => true
  | _ :: _, [] => false
  | a :: as, b :: bs => a = b && isPref as bs

/-- Python's `needle in hay` substring test. -/
def subIn (needle : Str) : Str → Bool
  | [] => needle.isEmpty
  | c :: rest => isPref needle (c :: rest) || subIn needle rest

/-- Python `str.replace('_', ' ')`. -/
def underscoreToSpace (s : Str) : Str :=
  s.map (fun c => if c = '_' then ' ' else c)

/-- A raw curriculum resource record (a JSON object whose fields may be
missing, hence `Option`); `QueryConceptMapper` reads every field through
`dict.get` with a default. -/
structure Resource where
  title : Option Str
  url : Option Str
  source : Option Str
deriving DecidableEq

/-- A raw topic entry of the curriculum document (JSON object with possibly
missing fields, read through `dict.get` with defaults). -/
structure TopicEntry where
  name : Option Str
  display_name : Option Str
  subtopics : Option (List Str)
  resources : Option (List Resource)
deriving DecidableEq

/-- The curriculum document's `topics` sequence. -/
abbrev Curriculum := List TopicEntry

/-- A concept-index entry.  The Python code stores a dict with keys
`type`, `display_name`, `subtopics`, `resources`, `parent_topic` and reads
the ones a given entry kind lacks through `dict.get` with the defaults
`[]` / `""`; those defaults are baked into the record fields here
(`subtopics = []` for subtopic entries, `parent_topic = ""` for topic
entries). -/
structure Entry where
  type : String
  display_name : Str
  subtopics : List Str
  resources : List Resource
  parent_topic : Str
deriving DecidableEq

/-- The concept index: a string-keyed dictionary, modelled as an
association list with `insertIdx` overwrite semantics. -/
abbrev Index := List (Str × Entry)

/-- First-match association lookup (keys are unique after `insertIdx`). -/
def lookupIdx : Index → Str → Option Entry
  | [], _ => none
  | (k, v) :: rest, key => if k = key then some v else lookupIdx rest key

/-- Python `key in dict`. -/
def hasKey (idx : Index) (k : Str) : Bool := (lookupIdx idx k).isSome

/-- Python `dict[k] = v`: overwrite in place if the key exists (keeping its
position, as CPython dicts do), otherwise append at the end. -/
def insertIdx (idx : Index) (k : Str) (v : Entry) : Index :=
  if hasKey idx k then
    idx.map (fun p => if p.1 = k then (k, v) else p)
  else
    idx ++ [(k, v)]

/-- The subtopic-entry resource filter of `_build_concept_index`:
`[r for r in resources if subtopic.lower() in r.get("title", "").lower()]`. -/
def filterSubtopicResources (subtopic : Str) (rs : List Resource) : List Resource :=
  rs.filter (fun r => subIn (lower subtopic) (lower (r.title.getD [])))

/-- The topic entry registered for a topic (`type == "topic"`). -/
def topicEntryOf (t : TopicEntry) : Entry :=
  { type := (r"topic")
    display_name := (t.display_name.getD (t.name.getD []))
    subtopics := t.subtopics.getD []
    resources := t.resources.getD []
    parent_topic := [] }

/-- The subtopic entry registered for subtopic string `st` of topic `t`
(`type == "subtopic"`). -/
def subtopicEntryOf (t : TopicEntry) (st : Str) : Entry :=
  { type := (r"subtopic")
    display_name := st
    subtopics := []
    resources := filterSubtopicResources st (t.resources.getD [])
    parent_topic := t.name.getD [] }

/-- One iteration of the `for topic_entry in topics` loop of
`_build_concept_index`: register the canonical name, the space-substituted
alternate name (only if different), the lower-cased display name (only if
non-empty and different from both), then every subtopic's lower-cased
form. -/
def addTopic (idx : Index) (t : TopicEntry) : Index :=
  let topic_name := t.name.getD []
  let entry := topicEntryOf t
  let idx1 := insertIdx idx topic_name entry
  let alt_name := underscoreToSpace topic_name
  let idx2 := if alt_name ≠ topic_name then insertIdx idx1 alt_name entry else idx1
  let display_name := lower (t.display_name.getD [])
  let idx3 :=
    if display_name ≠ [] ∧ display_name ≠ topic_name ∧ display_name ≠ alt_name then
      insertIdx idx2 display_name entry
    else idx2
  (t.subtopics.getD []).foldl
    (fun ix st => insertIdx ix (lower st) (subtopicEntryOf t st)) idx3

/-- `QueryConceptMapper._build_concept_index`. -/
def build_concept_index (c : Curriculum) : Index :=
  c.foldl addTopic []

/-!
A small regular-expression engine covering exactly the constructs used by
`QueryConceptMapper.query_patterns`: literals, `\s+`, `.+`, alternation,
`?`, and numbered capturing groups.  `mmatch` enumerates all ways to match
a prefix of the input in Python's backtracking preference order (greedy
quantifiers longest-first, left alternative first, `?` present-first), so
the head of the list is the match Python's `re` module commits to.
-/

/-- Regular-expression abstract syntax. -/
inductive RE where
  | lit : Str → RE
  | ws : RE
  | dotp : RE
  | grp : Nat → RE → RE
  | alt : RE → RE → RE
  | opt : RE → RE
  | seq : RE → RE → RE
deriving DecidableEq

/-- Captured groups: group number paired with the captured text.
A group absent from the list did not participate in the match. -/
abbrev Caps := List (Nat × Str)

/-- Case-insensitive character comparison (the patterns are compiled with
`re.IGNORECASE`). -/
def chEq (a b : Char) : Bool := a.toLower = b.toLower

/-- Case-insensitive literal-prefix match; returns the rest of the input. -/
def litMatch : Str → Str → Option Str
  | [], s => some s
  | _ :: _, [] => none
  | a :: as, b :: bs => if chEq a b then litMatch as bs else none

/-- Length of the longest prefix all of whose characters satisfy `p`. -/
def leadCount (p : Char → Bool) : Str → Nat
  | [] => 0
  | c :: rest => if p c then leadCount p rest + 1 else 0

/-- The splits `(consumed-length, rest)` a greedy one-or-more class match
tries, longest first: `n, n-1, …, 1` where `n` is the maximal run. -/
def greedySplits (s : Str) : Nat → List (Nat × Str)
  | 0 => []
  | n + 1 => (n + 1, s.drop (n + 1)) :: greedySplits s n

/-- All ways `r` can match a prefix of `s`, in Python's backtracking
preference order.  Each result is the captures made together with the
remaining input. -/
def mmatch : RE → Str → List (Caps × Str)
  | RE.lit l, s =>
    match litMatch l s with
    | some rest => [([], rest)]
    | none => []
  | RE.ws, s => (greedySplits s (leadCount isPySpace s)).map (fun p => ([], p.2))
  | RE.dotp, s =>
    (greedySplits s (leadCount (fun c => c ≠ '\n') s)).map (fun p => ([], p.2))
  | RE.grp n r, s =>
    (mmatch r s).map (fun p => (p.1 ++ [(n, s.take (s.length - p.2.length))], p.2))
  | RE.alt r1 r2, s => mmatch r1 s ++ mmatch r2 s
  | RE.opt r, s => mmatch r s ++ [([], s)]
  | RE.seq r1 r2, s =>
    (mmatch r1 s).flatMap (fun p => (mmatch r2 p.2).map (fun q => (p.1 ++ q.1, q.2)))

/-- `re.search` scanning loop: try each start position left to right and
return the captures of the first (leftmost, preference-first) match. -/
def searchRE (r : RE) : Str → Option Caps
  | [] => ((mmatch r []).head?).map Prod.fst
  | s@(_ :: rest) =>
    match (mmatch r s).head? with
    | some p => some p.1
    | none => searchRE r rest

/-- `match.group(n)` for a participating group (`""` if absent; the code
only reads groups that participate in every match of the pattern they
belong to). -/
def groupVal (caps : Caps) (n : Nat) : Str :=
  match caps.lookup n with
  | some s => s
  | none => []

/-- Sequencing of a list of regex fragments. -/
def reCat (rs : List RE) : RE :=
  match rs with
  | [] => RE.lit []
  | r :: rest => rest.foldl RE.seq r

/-- `r"what is (a|an)?\s+(.+)"` (2 groups). -/
def patWhatIs : RE :=
  reCat [RE.lit (r"what is ").toList,
    RE.opt (RE.grp 1 (RE.alt (RE.lit (r"a").toList) (RE.lit (r"an").toList))),
    RE.ws, RE.grp 2 RE.dotp]

/-- `r"define\s+(.+)"` (1 group). -/
def patDefine : RE := reCat [RE.lit (r"define").toList, RE.ws, RE.grp 1 RE.dotp]

/-- `r"explain\s+(.+)"` (1 group). -/
def patExplain : RE := reCat [RE.lit (r"explain").toList, RE.ws, RE.grp 1 RE.dotp]

/-- `r"describe\s+(.+)"` (1 group). -/
def patDescribe : RE := reCat [RE.lit (r"describe").toList, RE.ws, RE.grp 1 RE.dotp]

/-- `r"(difference|compare)\s+between\s+(.+)\s+and\s+(.+)"` (3 groups). -/
def patDiffBetween : RE :=
  reCat [RE.grp 1 (RE.alt (RE.lit (r"difference").toList) (RE.lit (r"compare").toList)),
    RE.ws, RE.lit (r"between").toList, RE.ws, RE.grp 2 RE.dotp,
    RE.ws, RE.lit (r"and").toList, RE.ws, RE.grp 3 RE.dotp]

/-- `r"(.+)\s+vs\s+(.+)"` (2 groups). -/
def patVs : RE :=
  reCat [RE.grp 1 RE.dotp, RE.ws, RE.lit (r"vs").toList, RE.ws, RE.grp 2 RE.dotp]

/-- `r"how\s+does\s+(.+)\s+differ\s+from\s+(.+)"` (2 groups). -/
def patDiffer : RE :=
  reCat [RE.lit (r"how").toList, RE.ws, RE.lit (r"does").toList, RE.ws,
    RE.grp 1 RE.dotp, RE.ws, RE.lit (r"differ").toList, RE.ws,
    RE.lit (r"from").toList, RE.ws, RE.grp 2 RE.dotp]

/-- `r"how\s+to\s+implement\s+(.+)"` (1 group). -/
def patImplement : RE :=
  reCat [RE.lit (r"how").toList, RE.ws, RE.lit (r"to").toList, RE.ws,
    RE.lit (r"implement").toList, RE.ws, RE.grp 1 RE.dotp]

/-- `r"implementation\s+of\s+(.+)"` (1 group). -/
def patImplementationOf : RE :=
  reCat [RE.lit (r"implementation").toList, RE.ws, RE.lit (r"of").toList,
    RE.ws, RE.grp 1 RE.dotp]

/-- `r"code\s+for\s+(.+)"` (1 group). -/
def patCodeFor : RE :=
  reCat [RE.lit (r"code").toList, RE.ws, RE.lit (r"for").toList, RE.ws,
    RE.grp 1 RE.dotp]

/-- `r"program\s+for\s+(.+)"` (1 group). -/
def patProgramFor : RE :=
  reCat [RE.lit (r"program").toList, RE.ws, RE.lit (r"for").toList, RE.ws,
    RE.grp 1 RE.dotp]

/-- `r"(time|space)\s+complexity\s+of\s+(.+)"` (2 groups). -/
def patComplexityOf : RE :=
  reCat [RE.grp 1 (RE.alt (RE.lit (r"time").toList) (RE.lit (r"space").toList)),
    RE.ws, RE.lit (r"complexity").toList, RE.ws, RE.lit (r"of").toList,
    RE.ws, RE.grp 2 RE.dotp]

/-- `r"how\s+(efficient|fast)\s+is\s+(.+)"` (2 groups). -/
def patHowEfficient : RE :=
  reCat [RE.lit (r"how").toList, RE.ws,
    RE.grp 1 (RE.alt (RE.lit (r"efficient").toList) (RE.lit (r"fast").toList)),
    RE.ws, RE.lit (r"is").toList, RE.ws, RE.grp 2 RE.dotp]

/-- `r"performance\s+of\s+(.+)"` (1 group). -/
def patPerformanceOf : RE :=
  reCat [RE.lit (r"performance").toList, RE.ws, RE.lit (r"of").toList,
    RE.ws, RE.grp 1 RE.dotp]

/-- `r"(use|application)\s+of\s+(.+)"` (2 groups). -/
def patUseOf : RE :=
  reCat [RE.grp 1 (RE.alt (RE.lit (r"use").toList) (RE.lit (r"application").toList)),
    RE.ws, RE.lit (r"of").toList, RE.ws, RE.grp 2 RE.dotp]

/-- `r"when\s+to\s+use\s+(.+)"` (1 group). -/
def patWhenToUse : RE :=
  reCat [RE.lit (r"when").toList, RE.ws, RE.lit (r"to").toList, RE.ws,
    RE.lit (r"use").toList, RE.ws, RE.grp 1 RE.dotp]

/-- `r"where\s+is\s+(.+)\s+used"` (1 group). -/
def patWhereUsed : RE :=
  reCat [RE.lit (r"where").toList, RE.ws, RE.lit (r"is").toList, RE.ws,
    RE.grp 1 RE.dotp, RE.ws, RE.lit (r"used").toList]

/-- `QueryConceptMapper.query_patterns`: the ordered intent table.  Each
pattern carries its number of (syntactic) capturing groups, which is what
`len(match.groups())` returns in Python. -/
def query_patterns : List (String × List (RE × Nat)) :=
  [((r"definition"),
    [(patWhatIs, 2), (patDefine, 1), (patExplain, 1), (patDescribe, 1)]),
   ((r"comparison"),
    [(patDiffBetween, 3), (patVs, 2), (patDiffer, 2)]),
   ((r"implementation"),
    [(patImplement, 1), (patImplementationOf, 1), (patCodeFor, 1), (patProgramFor, 1)]),
   ((r"complexity"),
    [(patComplexityOf, 2), (patHowEfficient, 2), (patPerformanceOf, 1)]),
   ((r"application"),
    [(patUseOf, 2), (patWhenToUse, 1), (patWhereUsed, 1)])]

/-- The inner `for pattern in patterns` loop of `_identify_query_type`,
including the group-count guards: a match only returns if the guard of its
category holds, otherwise the loop continues with the next pattern. -/
def tryPatterns (qt : String) (q : Str) : List (RE × Nat) → Option (String × List Str)
  | [] => none
  | (pat, ng) :: rest =>
    match searchRE pat q with
    | none => tryPatterns qt q rest
    | some caps =>
      if qt = (r"comparison") then
        if 2 ≤ ng then
          some (qt, [strip (groupVal caps 2),
                     if 3 ≤ ng then strip (groupVal caps 3) else []])
        else tryPatterns qt q rest
      else
        if 1 ≤ ng then some (qt, [strip (groupVal caps ng)])
        else tryPatterns qt q rest

/-- The outer `for query_type, patterns in query_patterns.items()` loop of
`_identify_query_type`. -/
def identifyLoop (q : Str) : List (String × List (RE × Nat)) → String × List Str
  | [] => ((r"general"), [])
  | (qt, pats) :: rest =>
    match tryPatterns qt q pats with
    | some res => res
    | none => identifyLoop q rest

/-- `QueryConceptMapper._identify_query_type`. -/
def identify_query_type (q : Str) : String × List Str :=
  identifyLoop q query_patterns

/-- Pass 1 of `_extract_concepts_from_query`: append every index key that
occurs as a substring of the query, in index iteration order. -/
def passOne (keys : List Str) (query : Str) : List Str :=
  keys.foldl (fun acc k => if subIn k query then acc ++ [k] else acc) []

/-- The inner `for word in concept_words` loop of pass 2: scan the key's
words and stop at the first word longer than 3 characters that occurs as a
whole token of the query's split. -/
def wordScan (qwords : List Str) : List Str → Bool
  | [] => false
  | w :: ws => if 3 < w.length ∧ w ∈ qwords then true else wordScan qwords ws

/-- Pass 2 of `_extract_concepts_from_query` (word-overlap fallback). -/
def passTwo (keys : List Str) (query : Str) : List Str :=
  keys.foldl
    (fun acc k => if wordScan (splitWs query) (splitWs k) then acc ++ [k] else acc) []

/-- `QueryConceptMapper._extract_concepts_from_query`. -/
def extract_concepts_from_query (idx : Index) (query : Str) : List Str :=
  let keys := idx.map Prod.fst
  let extracted := passOne keys query
  if extracted = [] then passTwo keys query else extracted

/-- The accumulation loop of `_find_related_concepts`: topics contribute
their subtopics, subtopics contribute their parent topic's subtopics (the
parent's entry read through `get("subtopics", [])`, which yields `[]` when
the parent key resolves to a subtopic entry or is absent). -/
def relatedAcc (idx : Index) (concepts : List Str) : List Str :=
  concepts.foldl
    (fun acc c =>
      match lookupIdx idx c with
      | none => acc
      | some info =>
        if info.type = (r"topic") then acc ++ info.subtopics
        else if info.type = (r"subtopic") then
          match lookupIdx idx info.parent_topic with
          | some pinfo => acc ++ pinfo.subtopics
          | none => acc
        else acc) []

/-- `QueryConceptMapper._find_related_concepts`. -/
def find_related_concepts (idx : Index) (concepts : List Str) : List Str :=
  ((relatedAcc idx concepts).filter (fun c => decide (c ∉ concepts))).take 5

/-- A resource as returned by `_get_relevant_resources`: the stored record
with every field defaulted and a `concept` tag attached. -/
structure TaggedResource where
  title : Str
  url : Str
  source : Str
  concept : Str
deriving DecidableEq

/-- Tag one stored resource with its source concept, defaulting missing
fields to `""` exactly as the Python `resource.get(..., "")` calls do. -/
def tagResource (concept : Str) (r : Resource) : TaggedResource :=
  { title := r.title.getD []
    url := r.url.getD []
    source := r.source.getD []
    concept := concept }

/-- The gathering loop of `_get_relevant_resources`: for each concept
present in the index, append its stored resources tagged with the
concept. -/
def gatherResources (idx : Index) (concepts : List Str) : List TaggedResource :=
  concepts.foldl
    (fun acc c =>
      match lookupIdx idx c with
      | none => acc
      | some info => acc ++ info.resources.map (tagResource c)) []

/-- The URL-deduplication loop of `_get_relevant_resources` with its
`seen_urls` set: a resource is kept only when its url is non-empty and not
yet seen. -/
def dedupByUrl : List TaggedResource → List Str → List TaggedResource
  | [], _ => []
  | r :: rs, seen =>
    if r.url ≠ [] ∧ r.url ∉ seen then
      r :: dedupByUrl rs (r.url :: seen)
    else
      dedupByUrl rs seen

/-- `QueryConceptMapper._get_relevant_resources`. -/
def get_relevant_resources (idx : Index) (concepts : List Str) : List TaggedResource :=
  (dedupByUrl (gatherResources idx concepts) []).take 10

/-- The analysis result dictionary of `analyze_query`. -/
structure AnalysisResult where
  original_query : Str
  query_type : String
  extracted_concepts : List Str
  related_concepts : List Str
  resources : List TaggedResource
deriving DecidableEq

/-- `QueryConceptMapper.analyze_query` (the index is the one built by the
constructor from the curriculum). -/
def analyze_query (idx : Index) (query : Str) : AnalysisResult :=
  let clean_query := strip (lower query)
  let tc := identify_query_type clean_query
  let extracted_concepts :=
    if tc.2 = [] then extract_concepts_from_query idx clean_query else tc.2
  { original_query := query
    query_type := tc.1
    extracted_concepts := extracted_concepts
    related_concepts := find_related_concepts idx extracted_concepts
    resources := get_relevant_resources idx extracted_concepts }

/-- The hard-coded advanced-concept table of `identify_knowledge_gaps`
(the `if parent_topic == ... : knowledge_gaps.extend(...)` chain). -/
def advancedGaps (parent : Str) : List Str :=
  if parent = (r"arrays").toList then
    [(r"array searching").toList, (r"array sorting").toList, (r"multidimensional arrays").toList]
  else if parent = (r"linked_lists").toList then
    [(r"doubly linked list").toList, (r"circular linked list").toList]
  else if parent = (r"stacks").toList || parent = (r"queues").toList then
    [(r"stack applications").toList, (r"queue applications").toList]
  else if parent = (r"trees").toList then
    [(r"binary search tree").toList, (r"balanced tree").toList]
  else if parent = (r"graphs").toList then
    [(r"shortest path").toList, (r"minimum spanning tree").toList]
  else if parent = (r"sorting_algorithms").toList then
    [(r"merge sort").toList, (r"quick sort").toList, (r"heap sort").toList]
  else if parent = (r"searching_algorithms").toList then
    [(r"binary search").toList, (r"hashing").toList]
  else if parent = (r"dynamic_programming").toList then
    [(r"memoization").toList, (r"tabulation").toList]
  else []

/-- First index of `x` in `l` (`list.index` returning `none` instead of
raising `ValueError`). -/
def idxOf : Str → List Str → Option Nat
  | _, [] => none
  | x, y :: ys => if y = x then some 0 else (idxOf x ys).map (· + 1)

/-- The prerequisite candidates contributed by one subtopic entry: the
subtopics listed before its display name in the parent topic's subtopics
sequence (empty when the parent is not indexed or the display name is not
found, mirroring the `try/except ValueError` skip). -/
def prereqFor (idx : Index) (info : Entry) : List Str :=
  match lookupIdx idx info.parent_topic with
  | none => []
  | some pinfo =>
    match idxOf info.display_name pinfo.subtopics with
    | none => []
    | some i => pinfo.subtopics.take i

/-- The main loop of `identify_knowledge_gaps`: walk the extracted
concepts, accumulating prerequisite candidates and advanced-concept gap
candidates for every concept that resolves to a subtopic entry. -/
def collectGaps (idx : Index) (extracted : List Str) : List Str × List Str :=
  extracted.foldl
    (fun acc c =>
      match lookupIdx idx c with
      | none => acc
      | some info =>
        if info.type = (r"subtopic") then
          (acc.1 ++ prereqFor idx info, acc.2 ++ advancedGaps info.parent_topic)
        else acc) ([], [])

/-- Python `list(set(a) - set(b))`, with the canonical `dedup` order
standing in for the unspecified hash order (all stated properties are
membership properties). -/
def setMinus (a b : List Str) : List Str :=
  a.dedup.filter (fun x => decide (x ∉ b))

/-- The knowledge-gap analysis dictionary of `identify_knowledge_gaps`. -/
structure GapResult where
  query_analysis : AnalysisResult
  prerequisite_concepts : List Str
  knowledge_gaps : List Str
  prerequisite_resources : List TaggedResource
  gap_resources : List TaggedResource
deriving DecidableEq

/-- `QueryConceptMapper.identify_knowledge_gaps`. -/
def identify_knowledge_gaps (idx : Index) (query : Str) : GapResult :=
  let analysis := analyze_query idx query
  let cand := collectGaps idx analysis.extracted_concepts
  let prerequisite_concepts := setMinus cand.1 analysis.extracted_concepts
  let knowledge_gaps :=
    (setMinus cand.2 analysis.extracted_concepts).filter
      (fun x => decide (x ∉ prerequisite_concepts))
  { query_analysis := analysis
    prerequisite_concepts := prerequisite_concepts
    knowledge_gaps := knowledge_gaps
    prerequisite_resources := get_relevant_resources idx prerequisite_concepts
    gap_resources := get_relevant_resources idx knowledge_gaps }

/-! ## Concrete curricula used by the claims' concrete instances -/

/-- Build a resource record with all three fields present. -/
def mkResource (t u s : String) : Resource :=
  ⟨some t.toList, some u.toList, some s.toList⟩

/-- Topic `trees` with the single subtopic `"binary search tree"`. -/
def treesCurriculum : Curriculum :=
  [⟨some (r"trees").toList, some (r"Trees").toList,
    some [(r"binary search tree").toList], some []⟩]

/-- Topic `arrays` with its four subtopics in teaching order. -/
def arraysCurriculum : Curriculum :=
  [⟨some (r"arrays").toList, some (r"Arrays").toList,
    some [(r"array creation").toList, (r"array insertion").toList,
          (r"array deletion").toList, (r"array traversal").toList],
    some []⟩]

/-- Topic `arrays` with one empty-url resource and two resources sharing a
url. -/
def resourcesCurriculum : Curriculum :=
  [⟨some (r"arrays").toList, some (r"Arrays").toList, some [],
    some [mkResource "Array basics" "" "geeksforgeeks",
          mkResource "Array guide" "https://e.x/1" "geeksforgeeks",
          mkResource "Array guide copy" "https://e.x/1" "w3schools"]⟩]

/-- A topic whose own subtopic's case-folded form collides with the
topic's space-substituted alternate name `"foo bar"`. -/
def collisionCurriculum : Curriculum :=
  [⟨some (r"foo_bar").toList, some (r"Baz").toList,
    some [(r"Foo bar").toList], some [mkResource "xyz" "u" "s"]⟩]

/-- Topic `sorting_algorithms` with subtopic `"quick sort"`. -/
def sortingCurriculum : Curriculum :=
  [⟨some (r"sorting_algorithms").toList, some (r"Sorting").toList,
    some [(r"quick sort").toList], some []⟩]

/-! ## C1 -/

/-- C1 counterexample: against a curriculum containing topic `trees` with
subtopic `"binary search tree"`, `analyze_query "what is binary search
tree"` does not return `query_type = "definition"`: the pattern
`what is (a|an)?\s+(.+)` requires whitespace after the optional article, so
the article-less query matches no pattern at all. -/
theorem C1_counterexample :
    ¬((analyze_query (build_concept_index treesCurriculum)
        (r"what is binary search tree").toList).query_type = (r"definition") ∧
      (analyze_query (build_concept_index treesCurriculum)
        (r"what is binary search tree").toList).extracted_concepts =
        [(r"binary search tree").toList]) := by
  decide

/-- C1 amended: the query falls through every intent pattern, so
`query_type` is `"general"`; the fallback exact-substring pass still
extracts exactly `["binary search tree"]`. -/
theorem C1_amended_analysis :
    (analyze_query (build_concept_index treesCurriculum)
      (r"what is binary search tree").toList).query_type = (r"general") ∧
    (analyze_query (build_concept_index treesCurriculum)
      (r"what is binary search tree").toList).extracted_concepts =
      [(r"binary search tree").toList] := by
  decide

/-! ## C2 -/

/-- C2 counterexample: the resource titled `"Array basics"` has an empty
url; it is appended (tagged) by the gathering loop but `_get_relevant_resources`
drops it — `if url and url not in seen_urls` keeps a resource only when its
url is non-empty, so empty-url resources are removed, not kept. -/
theorem C2_counterexample :
    tagResource (r"arrays").toList (mkResource "Array basics" "" "geeksforgeeks") ∈
      gatherResources (build_concept_index resourcesCurriculum) [(r"arrays").toList] ∧
    tagResource (r"arrays").toList (mkResource "Array basics" "" "geeksforgeeks") ∉
      get_relevant_resources (build_concept_index resourcesCurriculum)
        [(r"arrays").toList] := by
  decide

/-! ## C3 -/

/-- C3 counterexample: with an empty curriculum the index is empty, yet the
query `"define stack"` is classified by the intent patterns alone, so its
result has `query_type = "definition"` and `extracted_concepts = ["stack"]`
— not `general` with empty concepts as the claim states. -/
theorem C3_counterexample :
    build_concept_index [] = [] ∧
    ¬((analyze_query (build_concept_index []) (r"define stack").toList).query_type =
        (r"general") ∧
      (analyze_query (build_concept_index [])
        (r"define stack").toList).extracted_concepts = []) := by
  decide

/-! ## C8 -/

/-- C8 counterexample: for `collisionCurriculum`'s only topic the three
name forms `"foo_bar"`, `"foo bar"`, `"baz"` are pairwise distinct, yet the
keys `"foo_bar"` and `"foo bar"` do not resolve to entries with identical
resources content: the topic's own subtopic `"Foo bar"` case-folds to
`"foo bar"` and overwrites the alternate-name key with a subtopic entry. -/
theorem C8_counterexample :
    (r"foo bar").toList ≠ (r"foo_bar").toList ∧
    (r"baz").toList ≠ (r"foo_bar").toList ∧
    (r"baz").toList ≠ (r"foo bar").toList ∧
    ¬((lookupIdx (build_concept_index collisionCurriculum) (r"foo_bar").toList).map
        Entry.resources =
      (lookupIdx (build_concept_index collisionCurriculum) (r"foo bar").toList).map
        Entry.resources) := by
  decide

/-! ## Generic lemmas about the helper loops -/

/-- The related-concepts list is the post-filter truncation, so it never
exceeds 5 entries. -/
lemma find_related_length (idx : Index) (cs : List Str) :
    (find_related_concepts idx cs).length ≤ 5 := by
  simp only [find_related_concepts]
  rw [List.length_take]
  exact min_le_left _ _

/-- Everything the related-concepts list keeps passed the
`c not in concepts` filter. -/
lemma find_related_excludes (idx : Index) (cs : List Str) :
    ∀ x ∈ find_related_concepts idx cs, x ∉ cs := by
  intro x hx
  simp only [find_related_concepts] at hx
  have hx' := List.mem_of_mem_take hx
  exact of_decide_eq_true (List.mem_filter.1 hx').2

/-- Soundness of the `seen_urls` deduplication loop: the output is pairwise
distinct in urls, and every kept resource has a non-empty url outside
`seen`. -/
lemma dedupByUrl_sound (rs : List TaggedResource) :
    ∀ seen : List Str,
      List.Pairwise (fun a b => a.url ≠ b.url) (dedupByUrl rs seen) ∧
      ∀ r ∈ dedupByUrl rs seen, r.url ≠ [] ∧ r.url ∉ seen := by
  induction rs with
  | nil => intro seen; simp [dedupByUrl]
  | cons r rs ih =>
    intro seen
    rw [dedupByUrl]
    by_cases h : r.url ≠ [] ∧ r.url ∉ seen
    · rw [if_pos h]
      have ih' := ih (r.url :: seen)
      refine ⟨List.pairwise_cons.2 ⟨?_, ih'.1⟩, ?_⟩
      · intro b hb
        have hb' := (ih'.2 b hb).2
        intro hc
        exact hb' (hc ▸ List.mem_cons_self _ _)
      · intro s hs
        rcases List.mem_cons.1 hs with heq | hmem
        · subst heq; exact h
        · have h2 := (ih'.2 s hmem)
          exact ⟨h2.1, fun hin => h2.2 (List.mem_cons_of_mem _ hin)⟩
    · rw [if_neg h]
      exact ih seen

/-- The resolved resources list never exceeds 10 entries. -/
lemma get_relevant_length (idx : Index) (cs : List Str) :
    (get_relevant_resources idx cs).length ≤ 10 := by
  simp only [get_relevant_resources]
  rw [List.length_take]
  exact min_le_left _ _

/-- The resolved resources list has pairwise different urls. -/
lemma get_relevant_pairwise (idx : Index) (cs : List Str) :
    List.Pairwise (fun a b : TaggedResource => a.url = [] ∨ a.url ≠ b.url)
      (get_relevant_resources idx cs) := by
  simp only [get_relevant_resources]
  have hp := (dedupByUrl_sound (gatherResources idx cs) []).1
  exact ((hp.sublist (List.take_sublist _ _)).imp (fun h => Or.inr h))

/-! ## C4 -/

/-- C4: for every curriculum and query, `related_concepts` has at most 5
entries none of which is an extracted concept, and `resources` has at most
10 entries no two of which share a non-empty url. -/
theorem C4_cap_invariants (c : Curriculum) (q : Str) :
    (analyze_query (build_concept_index c) q).related_concepts.length ≤ 5 ∧
    (∀ x ∈ (analyze_query (build_concept_index c) q).related_concepts,
      x ∉ (analyze_query (build_concept_index c) q).extracted_concepts) ∧
    (analyze_query (build_concept_index c) q).resources.length ≤ 10 ∧
    List.Pairwise (fun a b : TaggedResource => a.url = [] ∨ a.url ≠ b.url)
      (analyze_query (build_concept_index c) q).resources := by
  simp only [analyze_query]
  exact ⟨find_related_length _ _, find_related_excludes _ _,
    get_relevant_length _ _, get_relevant_pairwise _ _⟩

/-! ## C5 -/

/-- C5: prerequisite concepts, knowledge gaps and extracted concepts of a
knowledge-gap result are pairwise disjoint, because each later set is
filtered against the earlier ones. -/
theorem C5_gap_disjointness (c : Curriculum) (q : Str) :
    (∀ x ∈ (identify_knowledge_gaps (build_concept_index c) q).prerequisite_concepts,
      x ∉ (identify_knowledge_gaps (build_concept_index c)
            q).query_analysis.extracted_concepts) ∧
    (∀ x ∈ (identify_knowledge_gaps (build_concept_index c) q).knowledge_gaps,
      x ∉ (identify_knowledge_gaps (build_concept_index c)
            q).query_analysis.extracted_concepts) ∧
    (∀ x ∈ (identify_knowledge_gaps (build_concept_index c) q).knowledge_gaps,
      x ∉ (identify_knowledge_gaps (build_concept_index c)
            q).prerequisite_concepts) := by
  simp only [identify_knowledge_gaps, setMinus]
  refine ⟨fun x hx => ?_, fun x hx => ?_, fun x hx => ?_⟩
  · exact of_decide_eq_true (List.mem_filter.1 hx).2
  · exact of_decide_eq_true (List.mem_filter.1 (List.mem_filter.1 hx).1).2
  · exact of_decide_eq_true (List.mem_filter.1 hx).2

/-! ## C6: the intent classifier as the spec describes it -/

/-- The intent table flattened to one ordered list of
(category, pattern, group count) entries — category order first,
within-category order second. -/
def flatPatterns (tbl : List (String × List (RE × Nat))) : List (String × RE × Nat) :=
  tbl.flatMap (fun p => p.2.map (fun e => (p.1, e.1, e.2)))

/-- The capture semantics the specification describes: for `comparison`,
the second group is concept-1 and (if present) the third group is
concept-2, as a two-element list whose second element may be empty; for
every other category, the last capturing group's trimmed text as a
one-element list. -/
def captureSpec (qt : String) (ng : Nat) (caps : Caps) : List Str :=
  if qt = (r"comparison") then
    [strip (groupVal caps 2), if 3 ≤ ng then strip (groupVal caps 3) else []]
  else
    [strip (groupVal caps ng)]

/-- The classifier as the specification words it: the first entry of the
flattened ordered pattern list whose pattern matches anywhere in the query
wins and stops all further search; if none matches, intent is `general`
with no concepts. -/
def specLoop (q : Str) (entries : List (String × RE × Nat)) : String × List Str :=
  match entries.find? (fun e => (searchRE e.2.1 q).isSome) with
  | none => ((r"general"), [])
  | some (qt, pat, ng) =>
    match searchRE pat q with
    | some caps => (qt, captureSpec qt ng caps)
    | none => ((r"general"), [])

/-- Specification-side classifier over the declared pattern table. -/
def classifierSpec (q : Str) : String × List Str :=
  specLoop q (flatPatterns query_patterns)

/-- The inner pattern loop agrees with first-match-wins provided every
pattern of the category satisfies the group-count guard of its branch. -/
lemma tryPatterns_eq_find (qt : String) (q : Str) (pats : List (RE × Nat))
    (h : ∀ e ∈ pats,
      (qt = (r"comparison") → 2 ≤ e.2) ∧ (qt ≠ (r"comparison") → 1 ≤ e.2)) :
    tryPatterns qt q pats =
      match pats.find? (fun e => (searchRE e.1 q).isSome) with
      | none => none
      | some (pat, ng) =>
        match searchRE pat q with
        | some caps => some (qt, captureSpec qt ng caps)
        | none => none := by
  induction pats with
  | nil => rfl
  | cons e rest ih =>
    obtain ⟨pat, ng⟩ := e
    cases hs : searchRE pat q with
    | none =>
      simp only [tryPatterns, hs, List.find?_cons, Option.isSome_none]
      exact ih (fun e he => h e (List.mem_cons_of_mem _ he))
    | some caps =>
      have hg := h (pat, ng) (List.mem_cons_self _ _)
      by_cases hc : qt = (r"comparison")
      · simp only [tryPatterns, hs, List.find?_cons, Option.isSome_some,
          if_pos hc, if_pos (hg.1 hc), captureSpec]
      · simp only [tryPatterns, hs, List.find?_cons, Option.isSome_some,
          if_neg hc, if_pos (hg.2 hc), captureSpec]

/-- The category loop agrees with first-match-wins over the flattened
table, provided every entry satisfies its category's group-count guard. -/
lemma identifyLoop_eq_specLoop (q : Str) (tbl : List (String × List (RE × Nat)))
    (h : ∀ cat ∈ tbl, ∀ e ∈ cat.2,
      (cat.1 = (r"comparison") → 2 ≤ e.2) ∧ (cat.1 ≠ (r"comparison") → 1 ≤ e.2)) :
    identifyLoop q tbl = specLoop q (flatPatterns tbl) := by
  induction tbl with
  | nil => rfl
  | cons cat rest ih =>
    obtain ⟨qt, pats⟩ := cat
    rw [identifyLoop,
      tryPatterns_eq_find qt q pats (h (qt, pats) (List.mem_cons_self _ _))]
    have hrest := ih (fun c hc => h c (List.mem_cons_of_mem _ hc))
    have hflat : flatPatterns ((qt, pats) :: rest) =
        pats.map (fun e => (qt, e.1, e.2)) ++ flatPatterns rest := by
      simp [flatPatterns]
    rw [hflat]
    unfold specLoop
    rw [List.find?_append, List.find?_map]
    cases hf : pats.find? (fun e => (searchRE e.1 q).isSome) with
    | some e =>
      obtain ⟨pat, ng⟩ := e
      have hcomp :
          pats.find?
            ((fun en : String × RE × Nat => (searchRE en.2.1 q).isSome) ∘
              (fun e : RE × Nat => (qt, e.1, e.2))) = some (pat, ng) := by
        rw [← hf]; rfl
      have hps : (searchRE pat q).isSome = true := by
        simpa using List.find?_some hf
      obtain ⟨caps, hcaps⟩ := Option.isSome_iff_exists.1 hps
      rw [hcomp]
      simp only [hcaps, Option.map_some', Option.or_some]
    | none =>
      have hcomp :
          pats.find?
            ((fun en : String × RE × Nat => (searchRE en.2.1 q).isSome) ∘
              (fun e : RE × Nat => (qt, e.1, e.2))) = none := by
        rw [← hf]; rfl
      rw [hcomp]
      simp only [Option.map_none', Option.none_or]
      exact hrest

/-- C6: `_identify_query_type` is exactly the specification's classifier:
categories in declaration order, patterns in order within a category, the
first matching pattern stops all further search, comparison matches return
[group 2, group 3 or ""] and every other match returns the last group's
trimmed text; with no match at all the result is `("general", [])`. -/
theorem C6_classifier_refinement (q : Str) :
    identify_query_type q = classifierSpec q := by
  unfold identify_query_type classifierSpec
  exact identifyLoop_eq_specLoop q query_patterns (by decide)

/-! ## C7: the fallback concept extractor -/

/-- Appending-`if` folds are filters. -/
lemma foldl_append_if {α : Type} (p : α → Bool) :
    ∀ (l : List α) (init : List α),
      l.foldl (fun acc k => if p k then acc ++ [k] else acc) init = init ++ l.filter p := by
  intro l
  induction l with
  | nil => intro init; simp
  | cons a l ih =>
    intro init
    by_cases h : p a
    · rw [List.foldl_cons, if_pos h, ih, List.filter_cons_of_pos h, List.append_assoc]
      rfl
    · rw [List.foldl_cons, if_neg h, ih, List.filter_cons_of_neg h]

/-- The break-on-first-hit word scan is an existential over the key's
words. -/
lemma wordScan_eq_any (qws : List Str) :
    ∀ ws : List Str,
      wordScan qws ws = ws.any (fun w => decide (3 < w.length ∧ w ∈ qws)) := by
  intro ws
  induction ws with
  | nil => rfl
  | cons w ws ih =>
    by_cases h : 3 < w.length ∧ w ∈ qws
    · rw [wordScan, if_pos h, List.any_cons]
      simp [h]
    · rw [wordScan, if_neg h, List.any_cons, ih]
      simp [h]

/-- The concept extractor as the specification words it: pass 1 keeps the
keys occurring as substrings of the query; pass 2, run only when pass 1
found nothing, keeps the keys one of whose words longer than 3 characters
occurs as a whole token of the query's word split. -/
def extractSpec (idx : Index) (query : Str) : List Str :=
  let keys := idx.map Prod.fst
  let exact := keys.filter (fun k => subIn k query)
  if exact = [] then
    keys.filter (fun k => decide (∃ w ∈ splitWs k, 3 < w.length ∧ w ∈ splitWs query))
  else exact

/-- The extractor loops compute exactly the specification's two-pass
filter. -/
lemma extract_eq_extractSpec (idx : Index) (q : Str) :
    extract_concepts_from_query idx q = extractSpec idx q := by
  simp only [extract_concepts_from_query, extractSpec, passOne, passTwo,
    foldl_append_if, List.nil_append]
  have hcong :
      (idx.map Prod.fst).filter (fun k => wordScan (splitWs q) (splitWs k)) =
      (idx.map Prod.fst).filter
        (fun k => decide (∃ w ∈ splitWs k, 3 < w.length ∧ w ∈ splitWs q)) := by
    apply List.filter_congr
    intro k _
    rw [wordScan_eq_any]
    rw [Bool.eq_iff_iff]
    simp [List.any_eq_true]
  rw [hcong]

/-- Keys after an insert: unchanged on overwrite, extended by the new key
otherwise. -/
lemma keys_insertIdx (idx : Index) (k : Str) (v : Entry) :
    (insertIdx idx k v).map Prod.fst =
      if hasKey idx k then idx.map Prod.fst else idx.map Prod.fst ++ [k] := by
  unfold insertIdx
  by_cases h : hasKey idx k
  · rw [if_pos h, if_pos h, List.map_map]
    congr 1
    funext p
    by_cases hp : p.1 = k
    · simp [hp]
    · simp [hp]
  · rw [if_neg h, if_neg h, List.map_append]
    rfl

/-- A key is present exactly when lookup succeeds. -/
lemma lookupIdx_eq_none_iff (idx : Index) (k : Str) :
    lookupIdx idx k = none ↔ k ∉ idx.map Prod.fst := by
  induction idx with
  | nil => simp [lookupIdx]
  | cons p rest ih =>
    rw [lookupIdx]
    by_cases h : p.1 = k
    · rw [if_pos h]
      constructor
      · intro hc; exact absurd hc (by simp)
      · intro hn
        exact absurd (by rw [List.map_cons, h]; exact List.mem_cons_self _ _) hn
    · simp only [if_neg h, ih, List.map_cons, List.mem_cons]
      constructor
      · intro hn hk
        rcases hk with hk | hk
        · exact h hk.symm
        · exact hn hk
      · intro hn
        exact fun hk => hn (Or.inr hk)

/-- Inserting preserves key distinctness. -/
lemma nodup_insertIdx (idx : Index) (k : Str) (v : Entry)
    (h : (idx.map Prod.fst).Nodup) : ((insertIdx idx k v).map Prod.fst).Nodup := by
  rw [keys_insertIdx]
  by_cases hk : hasKey idx k
  · rwa [if_pos hk]
  · rw [if_neg hk]
    have hnotin : k ∉ idx.map Prod.fst := by
      have hnone : lookupIdx idx k = none := by
        unfold hasKey at hk
        cases hl : lookupIdx idx k with
        | none => rfl
        | some _ => exact absurd (by rw [hl]; rfl) hk
      exact (lookupIdx_eq_none_iff idx k).1 hnone
    refine h.append (List.nodup_singleton k) ?_
    intro a ha hk1
    rw [List.mem_singleton] at hk1
    exact hnotin (hk1 ▸ ha)

/-- The subtopic-registration fold preserves key distinctness. -/
lemma nodup_subfold (t : TopicEntry) (sts : List Str) :
    ∀ ix : Index, (ix.map Prod.fst).Nodup →
      ((sts.foldl (fun ix st => insertIdx ix (lower st) (subtopicEntryOf t st))
          ix).map Prod.fst).Nodup := by
  induction sts with
  | nil => intro ix h; exact h
  | cons s sts ih => intro ix h; exact ih _ (nodup_insertIdx _ _ _ h)

/-- Registering one topic preserves key distinctness. -/
lemma nodup_addTopic (idx : Index) (t : TopicEntry)
    (h : (idx.map Prod.fst).Nodup) : ((addTopic idx t).map Prod.fst).Nodup := by
  simp only [addTopic]
  apply nodup_subfold
  split
  · apply nodup_insertIdx
    split
    · apply nodup_insertIdx
      exact nodup_insertIdx _ _ _ h
    · exact nodup_insertIdx _ _ _ h
  · split
    · apply nodup_insertIdx
      exact nodup_insertIdx _ _ _ h
    · exact nodup_insertIdx _ _ _ h

/-- The concept-building fold preserves key distinctness. -/
lemma nodup_buildfold (cs : Curriculum) :
    ∀ ix : Index, (ix.map Prod.fst).Nodup →
      ((cs.foldl addTopic ix).map Prod.fst).Nodup := by
  induction cs with
  | nil => intro ix h; exact h
  | cons t cs ih => intro ix h; exact ih _ (nodup_addTopic _ _ h)

/-- The concept index never holds two entries for one key. -/
lemma nodup_build_keys (c : Curriculum) :
    ((build_concept_index c).map Prod.fst).Nodup := by
  simp only [build_concept_index]
  exact nodup_buildfold c [] (by simp)

/-- C7: the fallback extractor equals the specification's two-pass
description (pass 2 only when pass 1 found nothing, whole-token overlap of
key words longer than 3 characters), never lists a key twice, and — on a
curriculum whose only subtopic is `"quick sort"` — extracts nothing from
`"explain quicksort algorithm"`: the single token `"quicksort"` does not
match the key word `"quick"`. -/
theorem C7_fallback_extractor (c : Curriculum) (q : Str) :
    extract_concepts_from_query (build_concept_index c) q =
      extractSpec (build_concept_index c) q ∧
    (extract_concepts_from_query (build_concept_index c) q).Nodup ∧
    extract_concepts_from_query (build_concept_index sortingCurriculum)
      (r"explain quicksort algorithm").toList = [] := by
  refine ⟨extract_eq_extractSpec _ _, ?_, by decide⟩
  rw [extract_eq_extractSpec]
  simp only [extractSpec]
  have hk := nodup_build_keys c
  split
  · exact hk.filter _
  · exact hk.filter _

/-! ## C8/C10: the index build as a sequence of dictionary writes -/

/-- The `(key, entry)` writes one topic performs, in program order: the
canonical name, the space-substituted alternate (only if it differs), the
case-folded display name (only if non-empty and different from both), then
every subtopic's case-folded form. -/
def topicRegs (t : TopicEntry) : List (Str × Entry) :=
  [(t.name.getD [], topicEntryOf t)] ++
  (if underscoreToSpace (t.name.getD []) ≠ t.name.getD [] then
    [(underscoreToSpace (t.name.getD []), topicEntryOf t)]
  else []) ++
  (if lower (t.display_name.getD []) ≠ [] ∧
      lower (t.display_name.getD []) ≠ t.name.getD [] ∧
      lower (t.display_name.getD []) ≠ underscoreToSpace (t.name.getD []) then
    [(lower (t.display_name.getD []), topicEntryOf t)]
  else []) ++
  (t.subtopics.getD []).map (fun st => (lower st, subtopicEntryOf t st))

/-- All dictionary writes of `_build_concept_index`, in program order. -/
def registrations (c : Curriculum) : List (Str × Entry) :=
  c.flatMap topicRegs

/-- The value of the last write under a key, if any. -/
def lastAssoc : List (Str × Entry) → Str → Option Entry
  | [], _ => none
  | (k, v) :: rest, key =>
    match lastAssoc rest key with
    | some w => some w
    | none => if k = key then some v else none

/-- Lookup distributes over append, first list first. -/
lemma lookupIdx_append (a b : Index) (key : Str) :
    lookupIdx (a ++ b) key =
      match lookupIdx a key with
      | some v => some v
      | none => lookupIdx b key := by
  induction a with
  | nil => rfl
  | cons p rest ih =>
    rw [List.cons_append, lookupIdx, lookupIdx]
    by_cases h : p.1 = key
    · rw [if_pos h, if_pos h]
    · rw [if_neg h, if_neg h, ih]

/-- Lookup after the overwrite-in-place branch of `insertIdx`. -/
lemma lookupIdx_replace (idx : Index) (k : Str) (v : Entry) (key : Str) :
    lookupIdx (idx.map (fun p => if p.1 = k then (k, v) else p)) key =
      if k = key then (if hasKey idx k then some v else none)
      else lookupIdx idx key := by
  induction idx with
  | nil =>
    simp only [List.map_nil, lookupIdx, hasKey]
    by_cases h : k = key
    · rw [if_pos h]; rfl
    · rw [if_neg h]
  | cons p rest ih =>
    obtain ⟨a, b⟩ := p
    have hkey : hasKey ((a, b) :: rest) k =
        (if a = k then true else hasKey rest k) := by
      unfold hasKey
      rw [lookupIdx]
      by_cases h : a = k
      · rw [if_pos h, if_pos h]; rfl
      · rw [if_neg h, if_neg h]
    by_cases hp : a = k
    · rw [List.map_cons, if_pos hp, lookupIdx, hkey, if_pos hp]
      by_cases hkk : k = key
      · rw [if_pos hkk, if_pos hkk]
        simp
      · rw [if_neg hkk, if_neg hkk, ih, if_neg hkk, lookupIdx,
          if_neg (fun hc => hkk (hp ▸ hc))]
    · rw [List.map_cons, if_neg hp, lookupIdx, hkey, if_neg hp, ih]
      by_cases hkk : k = key
      · rw [if_pos hkk, if_pos hkk,
          if_neg (fun hc : a = key => hp (hkk ▸ hc))]
      · rw [if_neg hkk, if_neg hkk, lookupIdx]

/-- Lookup after a dictionary write: the written key now resolves to the
written value, everything else is unchanged. -/
lemma lookupIdx_insertIdx (idx : Index) (k : Str) (v : Entry) (key : Str) :
    lookupIdx (insertIdx idx k v) key =
      if k = key then some v else lookupIdx idx key := by
  unfold insertIdx
  by_cases hk : hasKey idx k
  · rw [if_pos hk, lookupIdx_replace]
    by_cases hkk : k = key
    · rw [if_pos hkk, if_pos hkk, if_pos hk]
    · rw [if_neg hkk, if_neg hkk]
  · rw [if_neg hk, lookupIdx_append]
    have hnone : lookupIdx idx k = none := by
      unfold hasKey at hk
      cases hl : lookupIdx idx k with
      | none => rfl
      | some _ => exact absurd (by rw [hl]; rfl) hk
    by_cases hkk : k = key
    · rw [if_pos hkk, ← hkk, hnone, lookupIdx, if_pos rfl]
    · cases h : lookupIdx idx key with
      | some w => rw [if_neg hkk]
      | none => rw [if_neg hkk, lookupIdx, if_neg hkk, lookupIdx]

/-- One topic's registration equals folding its write sequence. -/
lemma addTopic_eq_foldl (idx : Index) (t : TopicEntry) :
    addTopic idx t =
      (topicRegs t).foldl (fun ix p => insertIdx ix p.1 p.2) idx := by
  simp only [addTopic, topicRegs, List.foldl_append, List.foldl_map]
  by_cases h1 : underscoreToSpace (t.name.getD []) ≠ t.name.getD [] <;>
    by_cases h2 : lower (t.display_name.getD []) ≠ [] ∧
      lower (t.display_name.getD []) ≠ t.name.getD [] ∧
      lower (t.display_name.getD []) ≠ underscoreToSpace (t.name.getD []) <;>
    simp [h1, h2]

/-- The whole build equals folding the full write sequence. -/
lemma buildfold_eq_regs (c : Curriculum) :
    ∀ init : Index,
      c.foldl addTopic init =
        (registrations c).foldl (fun ix p => insertIdx ix p.1 p.2) init := by
  induction c with
  | nil => intro init; rfl
  | cons t cs ih =>
    intro init
    rw [List.foldl_cons, ih]
    simp only [registrations, List.flatMap_cons, List.foldl_append, addTopic_eq_foldl]

/-- Folding dictionary writes realises last-writer-wins lookup. -/
lemma lookupIdx_foldl_insert (regs : List (Str × Entry)) :
    ∀ (init : Index) (key : Str),
      lookupIdx (regs.foldl (fun ix p => insertIdx ix p.1 p.2) init) key =
        match lastAssoc regs key with
        | some v => some v
        | none => lookupIdx init key := by
  induction regs with
  | nil => intro init key; rfl
  | cons p regs ih =>
    intro init key
    rw [List.foldl_cons, ih, lastAssoc]
    cases h : lastAssoc regs key with
    | some w => rfl
    | none =>
      rw [lookupIdx_insertIdx]
      by_cases hk : p.1 = key
      · rw [if_pos hk, if_pos hk]
      · rw [if_neg hk, if_neg hk]

/-- The built index realises exactly the last write under each key. -/
lemma lookup_build_eq_lastAssoc (c : Curriculum) (key : Str) :
    lookupIdx (build_concept_index c) key = lastAssoc (registrations c) key := by
  rw [build_concept_index, buildfold_eq_regs, lookupIdx_foldl_insert]
  cases lastAssoc (registrations c) key with
  | some w => rfl
  | none => rfl

/-! ## C10 -/

/-- C10: the concept index keeps exactly one entry per key; lookup yields
the value of the *last* registration of that key in program order (each
topic's three name forms, then its subtopics' case-folded forms — the
order `registrations` spells out), so a later colliding registration
silently overwrites the earlier entry and no error is ever raised (the
build is a total function); concretely, in `collisionCurriculum` the
subtopic `"Foo bar"` overwrites the key `"foo bar"` first registered as
the topic's alternate name, which then resolves to the subtopic entry. -/
theorem C10_last_writer_wins (c : Curriculum) :
    ((build_concept_index c).map Prod.fst).Nodup ∧
    (∀ key : Str,
      lookupIdx (build_concept_index c) key = lastAssoc (registrations c) key) ∧
    lookupIdx (build_concept_index collisionCurriculum) (r"foo bar").toList =
      some { type := (r"subtopic"), display_name := (r"Foo bar").toList,
             subtopics := [], resources := [],
             parent_topic := (r"foo_bar").toList } ∧
    (registrations collisionCurriculum).map Prod.fst =
      [(r"foo_bar").toList, (r"foo bar").toList, (r"baz").toList,
       (r"foo bar").toList] := by
  refine ⟨nodup_build_keys c, fun key => lookup_build_eq_lastAssoc c key, by decide, by decide⟩

/-! ## C8 (amended): aliasing holds when nothing overwrites the keys -/

/-- Membership in a conditional singleton forces the element. -/
lemma mem_ite_singleton {α : Type} {c : Prop} [Decidable c] {x p : α}
    (h : p ∈ (if c then [x] else [])) : p = x := by
  split at h
  · exact List.mem_singleton.1 h
  · exact absurd h (List.not_mem_nil p)

/-- Every write of one topic is either a name-form write of the shared
topic entry or a subtopic write. -/
lemma mem_topicRegs (t' : TopicEntry) (p : Str × Entry) (hp : p ∈ topicRegs t') :
    (p.2 = topicEntryOf t' ∧
      (p.1 = t'.name.getD [] ∨ p.1 = underscoreToSpace (t'.name.getD []) ∨
        p.1 = lower (t'.display_name.getD []))) ∨
    (∃ st ∈ t'.subtopics.getD [], p = (lower st, subtopicEntryOf t' st)) := by
  simp only [topicRegs, List.mem_append] at hp
  rcases hp with ((h1 | h2) | h3) | h4
  · rw [List.mem_singleton] at h1
    subst h1
    exact Or.inl ⟨rfl, Or.inl rfl⟩
  · have := mem_ite_singleton h2
    subst this
    exact Or.inl ⟨rfl, Or.inr (Or.inl rfl)⟩
  · have := mem_ite_singleton h3
    subst this
    exact Or.inl ⟨rfl, Or.inr (Or.inr rfl)⟩
  · obtain ⟨st, hst, heq⟩ := List.mem_map.1 h4
    exact Or.inr ⟨st, hst, heq.symm⟩

/-- A key with no write resolves to nothing. -/
lemma lastAssoc_eq_none (regs : List (Str × Entry)) (k : Str)
    (h : ∀ p ∈ regs, p.1 ≠ k) : lastAssoc regs k = none := by
  induction regs with
  | nil => rfl
  | cons p regs ih =>
    obtain ⟨a, b⟩ := p
    rw [lastAssoc, ih (fun q hq => h q (List.mem_cons_of_mem _ hq))]
    exact if_neg (h (a, b) (List.mem_cons_self _ _))

/-- A resolved last write comes from an actual write under the key. -/
lemma lastAssoc_mem (regs : List (Str × Entry)) (k : Str) (w : Entry)
    (h : lastAssoc regs k = some w) : ∃ p ∈ regs, p.1 = k ∧ p.2 = w := by
  induction regs with
  | nil => cases h
  | cons p regs ih =>
    obtain ⟨a, b⟩ := p
    rw [lastAssoc] at h
    cases h2 : lastAssoc regs k with
    | some w2 =>
      rw [h2] at h
      obtain ⟨q, hq, hk, hv⟩ := ih (h ▸ h2)
      exact ⟨q, List.mem_cons_of_mem _ hq, hk, hv⟩
    | none =>
      rw [h2] at h
      by_cases hak : a = k
      · rw [if_pos hak] at h
        exact ⟨(a, b), List.mem_cons_self _ _, hak, Option.some.inj h⟩
      · rw [if_neg hak] at h
        cases h
/-- A key that was written resolves to something. -/
lemma lastAssoc_isSome_of_mem (regs : List (Str × Entry)) (k : Str) (e : Entry)
    (hex : (k, e) ∈ regs) : lastAssoc regs k ≠ none := by
  induction regs with
  | nil => exact absurd hex (List.not_mem_nil _)
  | cons p regs ih =>
    obtain ⟨a, b⟩ := p
    rw [lastAssoc]
    cases h2 : lastAssoc regs k with
    | some w => exact fun hc => by cases hc
    | none =>
      rcases List.mem_cons.1 hex with heq | hmem
      · have ha : a = k := congrArg Prod.fst heq.symm
        rw [if_pos ha]
        exact fun hc => by cases hc
      · exact absurd h2 (ih hmem)

/-- The last write under a key, when all writes under it carry one value,
is that value (provided there is at least one write). -/
lemma lastAssoc_of_unique (regs : List (Str × Entry)) (k : Str) (e : Entry)
    (hex : (k, e) ∈ regs) (huniq : ∀ p ∈ regs, p.1 = k → p.2 = e) :
    lastAssoc regs k = some e := by
  cases h : lastAssoc regs k with
  | none => exact absurd h (lastAssoc_isSome_of_mem regs k e hex)
  | some w =>
    obtain ⟨p, hp, hk, hv⟩ := lastAssoc_mem regs k w h
    rw [← hv, huniq p hp hk]

/-- C8 (amended): for a topic of the curriculum whose canonical name,
space-substituted alternate name and case-folded display name are pairwise
distinct (and the display form non-empty), all three keys resolve to the
one shared topic entry — provided no subtopic's case-folded form equals
any of the three keys and any topic whose name forms overlap them carries
the same topic entry (without that proviso the claim fails, see the
counterexample: a later registration overwrites the key). -/
theorem C8_amended_aliasing (c : Curriculum) (t : TopicEntry) (hmem : t ∈ c)
    (halt : underscoreToSpace (t.name.getD []) ≠ t.name.getD [])
    (hdisp : lower (t.display_name.getD []) ≠ [] ∧
      lower (t.display_name.getD []) ≠ t.name.getD [] ∧
      lower (t.display_name.getD []) ≠ underscoreToSpace (t.name.getD []))
    (hsub : ∀ t' ∈ c, ∀ st ∈ t'.subtopics.getD [],
      lower st ≠ t.name.getD [] ∧
      lower st ≠ underscoreToSpace (t.name.getD []) ∧
      lower st ≠ lower (t.display_name.getD []))
    (hname : ∀ t' ∈ c,
      ((t'.name.getD [] = t.name.getD [] ∨
        t'.name.getD [] = underscoreToSpace (t.name.getD []) ∨
        t'.name.getD [] = lower (t.display_name.getD [])) ∨
       (underscoreToSpace (t'.name.getD []) = t.name.getD [] ∨
        underscoreToSpace (t'.name.getD []) = underscoreToSpace (t.name.getD []) ∨
        underscoreToSpace (t'.name.getD []) = lower (t.display_name.getD [])) ∨
       (lower (t'.display_name.getD []) = t.name.getD [] ∨
        lower (t'.display_name.getD []) = underscoreToSpace (t.name.getD []) ∨
        lower (t'.display_name.getD []) = lower (t.display_name.getD []))) →
      topicEntryOf t' = topicEntryOf t) :
    lookupIdx (build_concept_index c) (t.name.getD []) = some (topicEntryOf t) ∧
    lookupIdx (build_concept_index c) (underscoreToSpace (t.name.getD [])) =
      some (topicEntryOf t) ∧
    lookupIdx (build_concept_index c) (lower (t.display_name.getD [])) =
      some (topicEntryOf t) := by
  have key_lookup : ∀ k : Str,
      (k = t.name.getD [] ∨ k = underscoreToSpace (t.name.getD []) ∨
        k = lower (t.display_name.getD [])) →
      (k, topicEntryOf t) ∈ topicRegs t →
      lookupIdx (build_concept_index c) k = some (topicEntryOf t) := by
    intro k hk hmemreg
    rw [lookup_build_eq_lastAssoc, registrations]
    apply lastAssoc_of_unique
    · exact List.mem_flatMap.2 ⟨t, hmem, hmemreg⟩
    · intro p hp hpk
      obtain ⟨t', ht', hpt'⟩ := List.mem_flatMap.1 hp
      rcases mem_topicRegs t' p hpt' with ⟨hval, hforms⟩ | ⟨st, hst, heq⟩
      · rw [hval]
        rcases hforms with h1 | h1 | h1 <;> rcases hk with h2 | h2 | h2 <;>
          · have e := (h1.symm.trans hpk).trans h2
            exact hname t' ht' (by
              first
              | exact Or.inl (Or.inl e)
              | exact Or.inl (Or.inr (Or.inl e))
              | exact Or.inl (Or.inr (Or.inr e))
              | exact Or.inr (Or.inl (Or.inl e))
              | exact Or.inr (Or.inl (Or.inr (Or.inl e)))
              | exact Or.inr (Or.inl (Or.inr (Or.inr e)))
              | exact Or.inr (Or.inr (Or.inl e))
              | exact Or.inr (Or.inr (Or.inr (Or.inl e)))
              | exact Or.inr (Or.inr (Or.inr (Or.inr e))))
      · have hp1 : p.1 = lower st := congrArg Prod.fst heq
        have hne := hsub t' ht' st hst
        have hstk : lower st = k := hp1.symm.trans hpk
        rcases hk with h2 | h2 | h2
        · exact absurd (hstk.trans h2) hne.1
        · exact absurd (hstk.trans h2) hne.2.1
        · exact absurd (hstk.trans h2) hne.2.2
  refine ⟨?_, ?_, ?_⟩
  · exact key_lookup _ (Or.inl rfl) (by simp [topicRegs])
  · exact key_lookup _ (Or.inr (Or.inl rfl)) (by simp [topicRegs, halt])
  · exact key_lookup _ (Or.inr (Or.inr rfl))
      (by simp [topicRegs, hdisp.1, hdisp.2.1, hdisp.2.2])

/-- A single topic whose three name forms are pairwise distinct and whose
subtopic collides with none of them. -/
def aliasTopic : TopicEntry :=
  ⟨some (r"foo_bar").toList, some (r"Qux").toList, some [(r"Abcd").toList], some []⟩

/-- One-topic curriculum exercising the amended aliasing claim. -/
def aliasCurriculum : Curriculum := [aliasTopic]

/-- Witness for the amended C8 theorem at `aliasCurriculum`. -/
theorem C8_amended_witness :
    (aliasTopic ∈ aliasCurriculum) ∧
    (lookupIdx (build_concept_index aliasCurriculum) (aliasTopic.name.getD []) =
        some (topicEntryOf aliasTopic) ∧
      lookupIdx (build_concept_index aliasCurriculum)
          (underscoreToSpace (aliasTopic.name.getD [])) =
        some (topicEntryOf aliasTopic) ∧
      lookupIdx (build_concept_index aliasCurriculum)
          (lower (aliasTopic.display_name.getD [])) =
        some (topicEntryOf aliasTopic)) :=
  ⟨by decide,
    C8_amended_aliasing aliasCurriculum aliasTopic (by decide) (by decide)
      (by decide) (by decide) (by decide)⟩

/-! ## C9: prerequisite derivation -/

/-- Membership in a take-prefix is existence at a smaller position. -/
lemma mem_take_iff (S : List Str) :
    ∀ (i : Nat) (x : Str), x ∈ S.take i ↔ ∃ j, j < i ∧ S.get? j = some x := by
  induction S with
  | nil =>
    intro i x
    simp [List.take_nil]
  | cons a S ih =>
    intro i x
    cases i with
    | zero => simp
    | succ i =>
      rw [List.take_succ_cons, List.mem_cons, ih]
      constructor
      · rintro (rfl | ⟨j, hj, hget⟩)
        · exact ⟨0, Nat.succ_pos i, rfl⟩
        · exact ⟨j + 1, Nat.succ_lt_succ hj, hget⟩
      · rintro ⟨j, hj, hget⟩
        cases j with
        | zero => exact Or.inl (Option.some.inj hget).symm
        | succ j => exact Or.inr ⟨j, Nat.lt_of_succ_lt_succ hj, hget⟩

/-- The prerequisite-concepts list of the `arrays` / `"array deletion"`
scenario, computed. -/
lemma arrays_prereq_list :
    (identify_knowledge_gaps (build_concept_index arraysCurriculum)
        (r"array deletion").toList).prerequisite_concepts =
      [(r"array creation").toList, (r"array insertion").toList] := by
  decide

/-- C9: a concept resolving to a subtopic entry whose parent topic is
indexed contributes as prerequisite candidates exactly the subtopics at
positions smaller than the (first) position of its display name in the
parent's subtopics sequence; if the display name is absent the derivation
is skipped, yielding no candidates; concretely, for the `arrays`
curriculum the query `"array deletion"` yields prerequisite concepts
{"array creation", "array insertion"} and never `"array traversal"`. -/
theorem C9_prerequisite_ordering (idx : Index) (info pinfo : Entry) (i : Nat)
    (hp : lookupIdx idx info.parent_topic = some pinfo)
    (hi : idxOf info.display_name pinfo.subtopics = some i) :
    (∀ x, x ∈ prereqFor idx info ↔ ∃ j, j < i ∧ pinfo.subtopics.get? j = some x) ∧
    (∀ (idx2 : Index) (info2 pinfo2 : Entry),
      lookupIdx idx2 info2.parent_topic = some pinfo2 →
      idxOf info2.display_name pinfo2.subtopics = none →
      prereqFor idx2 info2 = []) ∧
    (∀ x, x ∈ (identify_knowledge_gaps (build_concept_index arraysCurriculum)
          (r"array deletion").toList).prerequisite_concepts ↔
        (x = (r"array creation").toList ∨ x = (r"array insertion").toList)) ∧
    (r"array traversal").toList ∉
      (identify_knowledge_gaps (build_concept_index arraysCurriculum)
          (r"array deletion").toList).prerequisite_concepts := by
  refine ⟨?_, ?_, ?_, ?_⟩
  · intro x
    simp only [prereqFor, hp, hi]
    exact mem_take_iff pinfo.subtopics i x
  · intro idx2 info2 pinfo2 h1 h2
    simp only [prereqFor, h1, h2]
  · intro x
    rw [arrays_prereq_list]
    simp
  · rw [arrays_prereq_list]
    decide

/-- The subtopic entry the `arrays` curriculum registers for
`"array deletion"`. -/
def arrayDeletionEntry : Entry :=
  { type := (r"subtopic"), display_name := (r"array deletion").toList,
    subtopics := [], resources := [], parent_topic := (r"arrays").toList }

/-- The topic entry the `arrays` curriculum registers for `arrays`. -/
def arraysTopicEntry : Entry :=
  { type := (r"topic"), display_name := (r"Arrays").toList,
    subtopics := [(r"array creation").toList, (r"array insertion").toList,
      (r"array deletion").toList, (r"array traversal").toList],
    resources := [], parent_topic := [] }

/-- Witness for C9 at the `arrays` curriculum: the entry for
`"array deletion"`, its parent topic's entry, and position 2. -/
theorem C9_witness :
    (lookupIdx (build_concept_index arraysCurriculum)
        arrayDeletionEntry.parent_topic = some arraysTopicEntry ∧
      idxOf arrayDeletionEntry.display_name arraysTopicEntry.subtopics = some 2) ∧
    (r"array traversal").toList ∉
      (identify_knowledge_gaps (build_concept_index arraysCurriculum)
          (r"array deletion").toList).prerequisite_concepts :=
  ⟨⟨by decide, by decide⟩,
    (C9_prerequisite_ordering (build_concept_index arraysCurriculum)
      arrayDeletionEntry arraysTopicEntry 2 (by decide) (by decide)).2.2.2⟩

/-! ## C2 (amended): the resource resolver, declaratively -/

/-- First-occurrence-per-non-empty-url deduplication as the amended claim
words it: a resource with an empty url is dropped; a resource with a
non-empty url is kept and every later resource with the same url is
removed. -/
def dedupByUrlSpec : List TaggedResource → List TaggedResource
  | [] => []
  | r :: rs =>
    if r.url = [] then dedupByUrlSpec rs
    else r :: dedupByUrlSpec (rs.filter (fun s => decide (s.url ≠ r.url)))
termination_by l => l.length
decreasing_by
  · simp only [List.length_cons]
    exact Nat.lt_succ_of_le (Nat.le_refl _)
  · simp only [List.length_cons]
    exact Nat.lt_succ_of_le (List.length_filter_le _ _)

/-- Appending folds are flat maps. -/
lemma foldl_append_flatMap {α β : Type} (f : α → List β) :
    ∀ (l : List α) (init : List β),
      l.foldl (fun acc c => acc ++ f c) init = init ++ l.flatMap f := by
  intro l
  induction l with
  | nil => intro init; simp
  | cons a l ih =>
    intro init
    rw [List.foldl_cons, ih, List.flatMap_cons, List.append_assoc]

/-- The gathering loop tags and concatenates each indexed concept's stored
resources. -/
lemma gather_eq_flatMap (idx : Index) (cs : List Str) :
    gatherResources idx cs =
      cs.flatMap (fun c =>
        match lookupIdx idx c with
        | none => []
        | some info => info.resources.map (tagResource c)) := by
  unfold gatherResources
  have hfe : (fun (acc : List TaggedResource) (c : Str) =>
      match lookupIdx idx c with
      | none => acc
      | some info => acc ++ info.resources.map (tagResource c)) =
      (fun (acc : List TaggedResource) (c : Str) => acc ++
        match lookupIdx idx c with
        | none => []
        | some info => info.resources.map (tagResource c)) := by
    funext acc c
    cases lookupIdx idx c with
    | none => simp
    | some info => rfl
  rw [hfe, foldl_append_flatMap, List.nil_append]

/-- The seen-set deduplication loop equals the declarative first-occurrence
filter, relative to the urls already seen. -/
lemma dedupByUrl_eq_spec (rs : List TaggedResource) :
    ∀ seen : List Str,
      dedupByUrl rs seen =
        dedupByUrlSpec (rs.filter (fun r => decide (r.url ∉ seen))) := by
  induction rs with
  | nil =>
    intro seen
    simp [dedupByUrl, dedupByUrlSpec]
  | cons r rs ih =>
    intro seen
    rw [dedupByUrl, List.filter_cons]
    by_cases hseen : r.url ∈ seen
    · rw [if_neg (fun h => h.2 hseen)]
      have hdec : (decide (r.url ∉ seen)) = false := by simp [hseen]
      rw [hdec]
      simp only [Bool.false_eq_true, if_false]
      exact ih seen
    · have hdec : (decide (r.url ∉ seen)) = true := by simp [hseen]
      rw [hdec]
      simp only [if_true]
      by_cases hurl : r.url = []
      · rw [if_neg (fun h => h.1 hurl), ih seen]
        rw [dedupByUrlSpec, if_pos hurl]
      · rw [if_pos ⟨hurl, hseen⟩, ih (r.url :: seen)]
        rw [dedupByUrlSpec, if_neg hurl]
        congr 1
        rw [List.filter_filter]
        congr 1
        apply List.filter_congr
        intro s _
        rw [Bool.eq_iff_iff]
        simp only [Bool.and_eq_true, decide_eq_true_eq, List.mem_cons, not_or]

/-- C2 (amended): the resolver appends each indexed concept's stored
resources tagged with the concept, keeps only the first occurrence per
non-empty url in encounter order while *dropping* every resource whose url
is empty or missing (the claim's "each empty-url resource is kept" fails,
see the counterexample), and truncates to at most 10 entries. -/
theorem C2_amended_resolver (idx : Index) (concepts : List Str) :
    get_relevant_resources idx concepts =
      (dedupByUrlSpec (concepts.flatMap (fun c =>
        match lookupIdx idx c with
        | none => []
        | some info => info.resources.map (tagResource c)))).take 10 := by
  rw [get_relevant_resources, dedupByUrl_eq_spec, gather_eq_flatMap]
  congr 2
  apply List.filter_eq_self.2
  intro r _
  simp

/-! ## C3 (amended): behaviour on the empty curriculum -/

/-- The empty curriculum builds the empty index. -/
lemma build_nil : build_concept_index [] = [] := rfl

/-- With an empty index the relation resolver accumulates nothing. -/
lemma relatedAcc_nil (cs : List Str) : relatedAcc [] cs = [] := by
  unfold relatedAcc
  induction cs with
  | nil => rfl
  | cons c cs ih => exact ih

/-- With an empty index the resource gatherer gathers nothing. -/
lemma gatherResources_nil (cs : List Str) : gatherResources [] cs = [] := by
  unfold gatherResources
  induction cs with
  | nil => rfl
  | cons c cs ih => exact ih

/-- With an empty index both extractor passes find nothing. -/
lemma extract_nil (q : Str) : extract_concepts_from_query [] q = [] := by
  rfl

/-- C3 (amended): an empty curriculum yields an empty index without error,
missing topic fields behave as explicit empty defaults, and every query
analysed against the empty index has empty related-concepts and resource
lists — but its intent and extracted concepts are whatever the pattern
classifier alone returns (`general` with no concepts only when no intent
pattern matches, see the counterexample for a non-`general` case). -/
theorem C3_amended_empty_curriculum :
    build_concept_index [] = [] ∧
    build_concept_index [⟨none, none, none, none⟩] =
      build_concept_index [⟨some [], some [], some [], some []⟩] ∧
    (∀ q : Str,
      (analyze_query (build_concept_index []) q).related_concepts = [] ∧
      (analyze_query (build_concept_index []) q).resources = [] ∧
      ((analyze_query (build_concept_index []) q).query_type,
        (analyze_query (build_concept_index []) q).extracted_concepts) =
        identify_query_type (strip (lower q))) := by
  refine ⟨rfl, by decide, ?_⟩
  intro q
  simp only [analyze_query, build_nil]
  refine ⟨?_, ?_, ?_⟩
  · simp [find_related_concepts, relatedAcc_nil]
  · simp [get_relevant_resources, gatherResources_nil, dedupByUrl]
  · by_cases h : (identify_query_type (strip (lower q))).2 = []
    · rw [if_pos h, extract_nil, ← h]
    · rw [if_neg h]

end QCM

